import Mathlib

/-! Base62 token codec (`token.go`).

A shallow embedding of the Go package `token` and proofs about it.

* `Token` is Go's `uint64`: a natural number, every arithmetic step that can
  overflow is reduced modulo `2 ^ 64`.
* A Go `string` / `[]byte` is a list of bytes (`Fin 256`).
* `UnmarshalText` and `maxHashInt` compute powers of 62 with `math.Pow` on
  `float64`.  The part of `float64` they use (non-negative finite values,
  multiplication, doubling, reciprocal, comparison, conversion to `uint64`) is
  modelled exactly, with round-to-nearest-even on 53 significant bits, and
  `math.Pow` follows the loop of Go's `math/pow.go`.
* A function returning `(value, error)` returns a pair whose second component
  is `none` for a nil error.
* Go leaves the conversion of a float64 that does not fit in 64 bits to `uint64`
  to the implementation.  Every function that converts takes that result as its
  first argument `oor`, and every statement below holds for all values of it.
* `rand.Int63n` is not run: `New` takes the value it returns as an argument.
-/

namespace token

/-! ## float64 -/

/-- The non-negative float64 value `mant * 2 ^ exp`.  A value the hardware holds
has `mant ≤ 2 ^ 53`.  The exponent is not bounded here: a value of `2 ^ 1024` or
more stands for `+Inf`, and gradual underflow is not modelled (an underflowing
value stays strictly between 0 and 1, as it does in the hardware, or becomes 0
there; the only use made of such a value is its truncation to 0). -/
structure F64 where
  mant : Nat
  exp : Int
deriving DecidableEq, Repr

/-- The loop behind `bitLen`; `fuel` bounds the number of halvings. -/
def bitLenAux : Nat → Nat → Nat
  | 0, _ => 0
  | fuel + 1, n => if n = 0 then 0 else bitLenAux fuel (n / 2) + 1

/-- Number of significant bits of `n` (0 for 0): `n` halvings always suffice. -/
def bitLen (n : Nat) : Nat := bitLenAux n n

namespace F64

/-- Round `m * 2 ^ e` to 53 significant bits, ties to even.  `sticky` says that
the exact value has a non-zero remainder below the last bit of `m` (only used
with `m ≥ 2 ^ 53`). -/
def round (m : Nat) (e : Int) (sticky : Bool) : F64 :=
  if m < 2 ^ 53 then ⟨m, e⟩
  else
    let s := bitLen m - 53
    let q := m / 2 ^ s
    let r := m % 2 ^ s
    let half := 2 ^ (s - 1)
    let up : Bool := decide (half < r) || (r == half && (sticky || q % 2 == 1))
    ⟨if up then q + 1 else q, e + s⟩

/-- The float64 constant `0`. -/
def zero : F64 := ⟨0, 0⟩

/-- The float64 constant `1`. -/
def one : F64 := ⟨1, 0⟩

/-- The float64 constant `.5`. -/
def half : F64 := ⟨1, -1⟩

/-- The value `+Inf` (see `F64`). -/
def inf : F64 := ⟨1, 1024⟩

/-- Conversion `float64(n)` of a non-negative integer. -/
def ofNat (n : Nat) : F64 := round n 0 false

/-- The integer value of `float64(n)` for a Go `int`: `n` itself when
`|n| ≤ 2 ^ 53`, the nearest representable integer otherwise. -/
def intValue (n : Int) : Int :=
  let a := round n.natAbs 0 false
  let v : Int := a.mant * 2 ^ a.exp.toNat
  if n < 0 then -v else v

/-- Integer part of a value (truncation). -/
def floor (f : F64) : Nat :=
  match f.exp with
  | Int.ofNat k => f.mant * 2 ^ k
  | Int.negSucc k => f.mant / 2 ^ (k + 1)

/-- Comparison `a <= b`. -/
def le (a b : F64) : Bool :=
  let e := min a.exp b.exp
  decide (a.mant * 2 ^ (a.exp - e).toNat ≤ b.mant * 2 ^ (b.exp - e).toNat)

/-- Comparison `a < b`. -/
def lt (a b : F64) : Bool := !(le b a)

/-- Comparison `a == b`. -/
def eq (a b : F64) : Bool := le a b && le b a

/-- The builtin `min` on float64. -/
def min (a b : F64) : F64 := if lt b a then b else a

/-- The builtin `max` on float64. -/
def max (a b : F64) : F64 := if lt a b then b else a

/-- Product `a * b`, rounded. -/
def mul (a b : F64) : F64 := round (a.mant * b.mant) (a.exp + b.exp) false

/-- Sum `a + b`, rounded. -/
def add (a b : F64) : F64 :=
  let e := Min.min a.exp b.exp
  round (a.mant * 2 ^ (a.exp - e).toNat + b.mant * 2 ^ (b.exp - e).toNat) e false

/-- Quotient `1 / a`, rounded, for `a > 0`: the quotient is computed to more than
128 bits and the remainder of the division is the sticky bit. -/
def inv (a : F64) : F64 :=
  let k := 128 + bitLen a.mant
  round (2 ^ k / a.mant) (-a.exp - k) (2 ^ k % a.mant != 0)

/-- Go's `math.Frexp` for `a > 0`: `a = frac * 2 ^ exp` with `1/2 ≤ frac < 1`. -/
def Frexp (a : F64) : F64 × Int :=
  let bits : Nat := bitLen a.mant
  (⟨a.mant, -(bits : Int)⟩, a.exp + bits)

/-- Go's `math.Ldexp`: `frac * 2 ^ e`. -/
def Ldexp (frac : F64) (e : Int) : F64 := ⟨frac.mant, frac.exp + e⟩

/-- Conversion `uint64(f)`.  It truncates; when the integer part does not fit in
64 bits Go leaves the result to the implementation, and it is the parameter
`oor` here. -/
def toUint64 (oor : Nat) (f : F64) : Nat :=
  if f.floor < 2 ^ 64 then f.floor else oor

/-- The loop `for i := int64(yi); i != 0; i >>= 1` of Go's `math.pow`: it multiplies
`a1 * 2 ^ ae` by `(x1 * 2 ^ xe) ^ i`, squaring `x1` at every step.  `fuel` bounds
the number of iterations (`i` has at most 63 bits). -/
def powLoop : Nat → Nat → F64 → Int → F64 → Int → F64 × Int
  | 0, _, _, _, a1, ae => (a1, ae)
  | fuel + 1, i, x1, xe, a1, ae =>
    if i = 0 then (a1, ae)
    else if xe < -(2 ^ 12) ∨ 2 ^ 12 < xe then (a1, ae + xe)
    else
      let a1n := if i % 2 = 1 then mul a1 x1 else a1
      let aen := if i % 2 = 1 then ae + xe else ae
      let x2 := mul x1 x1
      let xe2 := 2 * xe
      if lt x2 half then powLoop fuel (i / 2) (add x2 x2) (xe2 - 1) a1n aen
      else powLoop fuel (i / 2) x2 xe2 a1n aen

/-- Go's `math.Pow(x, y)` (pure Go implementation, `math/pow.go`) for a finite
`x > 0` and an integer-valued `y`, given by its integer value.  The special
cases for `x = 0`, NaN, infinities and `y = ±0.5` cannot occur for such
arguments, and the fractional part `yf` of `y` is 0. -/
def Pow (x : F64) (y : Int) : F64 :=
  if y = 0 ∨ eq x one then one
  else if y = 1 then x
  else
    let yi := y.natAbs
    if 2 ^ 63 ≤ yi then
      if lt x one == decide (0 < y) then zero else inf
    else
      let fr := Frexp x
      let r := powLoop 64 yi fr.1 fr.2 one 0
      if y < 0 then Ldexp (inv r.1) (-r.2) else Ldexp r.1 r.2

end F64

/-! ## The package `token` -/

/-- The Go type `Token`, a `uint64`: a natural number below `2 ^ 64`. -/
abbrev Token := Nat

/-- One byte of a Go `string` or `[]byte`. -/
abbrev Byte := Fin 256

/-- The bytes of a string literal of ASCII characters. -/
def ascii (s : String) : List Byte := s.toList.map fun c => Fin.ofNat c.toNat

/-- Base62 is a string respresentation of every possible base62 character. -/
def Base62 : List Byte :=
  ascii "0123456789ABCDEFGHIJKLMNOPQRSTUVWXYZabcdefghijklmnopqrstuvwxyz"

/-- MaxTokenLength is the largest possible character length of a token. -/
def MaxTokenLength : Nat := 10

/-- MinTokenLength is the smallest possible character length of a token. -/
def MinTokenLength : Nat := 1

/-- DefaultTokenLength is the default size of a token. -/
def DefaultTokenLength : Nat := 9

/-- The constant `base62Len = Token(len(Base62))`. -/
def base62Len : Token := Base62.length

/-- The constant `math.MaxInt64`. -/
def MaxInt64 : Nat := 2 ^ 63 - 1

/-- The constant `math.MaxUint64`. -/
def MaxUint64 : Nat := 2 ^ 64 - 1

/-- The three errors of the package. -/
inductive Error where
  | ErrTokenTooSmall
  | ErrTokenTooBig
  | ErrInvalidCharacter
deriving DecidableEq, Repr

/-- Go's `bytes.IndexByte(b, c)`: the index of the first `c` in `b`, or -1. -/
def IndexByte : List Byte → Byte → Int
  | [], _ => -1
  | x :: xs, c =>
    if x = c then 0
    else
      let r := IndexByte xs c
      if r < 0 then -1 else r + 1

/-- The function `maxHashInt`:
`uint64(max(0, min(math.MaxUint64, math.Pow(float64(base62Len), float64(length)))))`. -/
def maxHashInt (oor : Nat) (length : Int) : Nat :=
  F64.toUint64 oor
    (F64.max F64.zero
      (F64.min (F64.ofNat MaxUint64)
        (F64.Pow (F64.ofNat base62Len) (F64.intValue length))))

/-- The argument `int64(maX & math.MaxInt64)` that `New` passes to `rand.Int63n`. -/
def randBound (oor : Nat) (opts : List Int) : Int :=
  let maX :=
    match opts with
    | [] => maxHashInt oor DefaultTokenLength
    | x :: _ => maxHashInt oor (min (max x MinTokenLength) MaxTokenLength)
  ((maX &&& MaxInt64 : Nat) : Int)

/-- The function `New(opts ...int)`.  `rand.Int63n(n)` panics when `n <= 0` (the
result is then `none`) and otherwise returns some `draw` with `0 <= draw < n`; the
value it returns is the argument `draw`. -/
def New (oor : Nat) (opts : List Int) (draw : Nat) : Option Token :=
  if randBound oor opts ≤ 0 then none
  else
    let t : Token := draw
    some (if t = 0 then (t + 1) % 2 ^ 64 else t)

/-- The loop `for _, c := range data` of `UnmarshalText`; `idx` and `number` are
the loop variables.  The float64 values `tokenLength`, `idx` and `power` are
integers, given by their integer values (the loop only runs with
`tokenLength <= 10`, where `idx + 1` and the subtraction are exact). -/
def unmarshalLoop (oor : Nat) (charsLength : F64) (tokenLength : Int) :
    List Byte → Int → Token → Except Error Token
  | [], _, number => Except.ok number
  | c :: rest, idx, number =>
    let power := tokenLength - (idx + 1)
    let index := IndexByte Base62 c
    if index < 0 then Except.error Error.ErrInvalidCharacter
    else
      unmarshalLoop oor charsLength tokenLength rest (idx + 1)
        ((number + index.toNat * F64.toUint64 oor (F64.Pow charsLength power) % 2 ^ 64)
          % 2 ^ 64)

/-- The method `(t *Token) UnmarshalText(data []byte) (err error)`: the new value
of the receiver and the error. -/
def UnmarshalText (oor : Nat) (t : Token) (data : List Byte) : Token × Option Error :=
  let charsLength := F64.ofNat Base62.length
  let tokenLength := F64.intValue data.length
  if tokenLength > MaxTokenLength then (t, some Error.ErrTokenTooBig)
  else if tokenLength < MinTokenLength then (t, some Error.ErrTokenTooSmall)
  else
    match unmarshalLoop oor charsLength tokenLength data 0 0 with
    | Except.error e => (t, some e)
    | Except.ok number => (number, none)

/-- The function `Decode(token string) (t Token, err error)`. -/
def Decode (oor : Nat) (tok : List Byte) : Token × Option Error :=
  UnmarshalText oor 0 tok

/-- The loop `for t > 0` of `MarshalText`: it appends the digits of `t`, least
significant first, to `chars`.  The index of `Base62[remainder]` is in range. -/
def marshalLoop (t : Token) (chars : List Byte) : List Byte :=
  if 0 < t then
    let result := t / base62Len
    let remainder := t % base62Len
    marshalLoop result (chars ++ [Base62.get ⟨remainder, Nat.mod_lt t (by decide)⟩])
  else chars
termination_by t
decreasing_by exact Nat.div_lt_self (by assumption) (by decide)

/-- The loop `for i, j := 0, len(chars)-1; i < j; i, j = i+1, j-1` of `MarshalText`,
which swaps `chars[i]` and `chars[j]`.  It runs on a non-empty `chars` only, so
that `j` is never negative. -/
def reverseLoop (chars : List Byte) (i j : Nat) : List Byte :=
  if i < j then
    reverseLoop ((chars.set i (chars.getD j 0)).set j (chars.getD i 0)) (i + 1) (j - 1)
  else chars
termination_by j - i
decreasing_by omega

/-- The method `(t Token) MarshalText() (chars []byte, err error)`. -/
def MarshalText (t : Token) : List Byte × Option Error :=
  if t = 0 then ([], none)
  else
    let chars := marshalLoop t []
    (reverseLoop chars 0 (chars.length - 1), none)

/-- The method `(t Token) Encode() string`. -/
def Encode (t : Token) : List Byte := (MarshalText t).1

/-! ## Notions used to state the properties -/

/-- The length `New` works with: the first option clamped to `[1, 10]`, or 9. -/
def effectiveLength (opts : List Int) : Nat :=
  match opts with
  | [] => 9
  | x :: _ => (min (max x 1) 10).toNat

/-- The character `Base62[d]` of the digit `d` (the zero byte when `d` is not a
digit). -/
def digitChar (d : Nat) : Byte := Base62.getD d 0

/-- The digit of the character `c`: its position in `Base62`, as `Decode` uses
it (0 when `c` is not in `Base62`). -/
def digitOf (c : Byte) : Nat := (IndexByte Base62 c).toNat

/-- The number a text denotes when it is read as a base-62 numeral, most
significant character first, every character standing for its `Base62` index. -/
def base62Value : List Byte → Nat
  | [] => 0
  | c :: rest => digitOf c * 62 ^ rest.length + base62Value rest

/-- One iteration of the loop `for t > 0` of `MarshalText` on the loop state
`(t, chars)`; a state with `t = 0` is final and left as it is. -/
def marshalStep (st : Token × List Byte) : Token × List Byte :=
  if 0 < st.1 then
    (st.1 / base62Len,
      st.2 ++ [Base62.get ⟨st.1 % base62Len, Nat.mod_lt st.1 (by decide)⟩])
  else st

/-- Bytewise lexicographic order of two texts, Go's `<` on strings. -/
def lexLt : List Byte → List Byte → Bool
  | [], [] => false
  | [], _ :: _ => true
  | _ :: _, [] => false
  | a :: s, b :: u => decide (a < b) || (a == b && lexLt s u)

/-- Shortlex order of two texts: the shorter one first, texts of one length in
bytewise lexicographic order. -/
def shortlexLt (s u : List Byte) : Prop :=
  s.length < u.length ∨ (s.length = u.length ∧ lexLt s u = true)

/-! ## float64 facts -/

theorem two_pow_bitLenAux_le (fuel : Nat) : ∀ n, n ≠ 0 → 2 ^ bitLenAux fuel n ≤ 2 * n := by
  induction fuel with
  | zero => intro n hn; simp [bitLenAux]; omega
  | succ f ih =>
    intro n hn
    simp only [bitLenAux, hn, if_false]
    by_cases h2 : n / 2 = 0
    · have : bitLenAux f (n / 2) = 0 := by
        rw [h2]; cases f <;> simp [bitLenAux]
      rw [this]; simp; omega
    · have := ih (n / 2) h2
      rw [pow_succ]
      omega

theorem two_pow_53_le_intValue (n : Nat) (h : 2 ^ 53 ≤ n) : 2 ^ 52 ≤ F64.intValue (n : Int) := by
  have hn : n ≠ 0 := by
    intro h0; rw [h0] at h; exact absurd h (by decide)
  have hb := two_pow_bitLenAux_le n n hn
  have hs : 2 ^ (bitLen n - 53) * 2 ^ 52 ≤ n := by
    by_cases h53 : 53 ≤ bitLen n
    · have : 2 ^ bitLen n = 2 ^ (bitLen n - 53) * 2 ^ 52 * 2 := by
        rw [mul_assoc, ← pow_succ, ← pow_add]; congr 1; omega
      unfold bitLen at this ⊢
      omega
    · have : bitLen n - 53 = 0 := by omega
      rw [this]; simpa using (by omega : 2 ^ 52 ≤ n)
  have hq : 2 ^ 52 ≤ n / 2 ^ (bitLen n - 53) := by
    rw [Nat.le_div_iff_mul_le (by positivity)]
    rw [mul_comm]; exact hs
  have hlt : ¬ n < 2 ^ 53 := by omega
  have hnn : ¬ ((n : Int) < 0) := by omega
  have key : ∀ q : Nat, 2 ^ 52 ≤ q → ∀ s : Nat, (2 ^ 52 : Int) ≤ (q : Int) * 2 ^ s := by
    intro q hq s
    have h1 : 1 ≤ 2 ^ s := Nat.one_le_two_pow
    have : 2 ^ 52 ≤ q * 2 ^ s := le_trans hq (Nat.le_mul_of_pos_right q h1)
    exact_mod_cast this
  simp only [F64.intValue, F64.round, Int.natAbs_ofNat, hlt, if_false, hnn, zero_add,
    Int.toNat_ofNat]
  split
  · exact key _ (by omega) _
  · exact key _ hq _

theorem intValue_of_lt (n : Nat) (h : n < 2 ^ 53) : F64.intValue (n : Int) = n := by
  have hnn : ¬ ((n : Int) < 0) := by omega
  simp only [F64.intValue, F64.round, Int.natAbs_ofNat, h, if_true, hnn, if_false]
  simp


set_option maxRecDepth 100000 in
theorem floor_Pow_base (k : Fin 11) :
    (F64.Pow (F64.ofNat Base62.length) ((k : Nat) : Int)).floor = 62 ^ (k : Nat) := by
  revert k; decide

set_option maxRecDepth 100000 in
theorem clamp_Pow_base (k : Fin 11) :
    F64.max F64.zero (F64.min (F64.ofNat MaxUint64)
      (F64.Pow (F64.ofNat base62Len) ((k : Nat) : Int)))
      = F64.Pow (F64.ofNat Base62.length) ((k : Nat) : Int) := by
  revert k; decide

theorem pow_62_lt (k : Nat) (hk : k ≤ 10) : 62 ^ k < 2 ^ 63 :=
  lt_of_le_of_lt (Nat.pow_le_pow_right (by decide) hk) (by decide)

theorem toUint64_Pow_base (oor k : Nat) (hk : k ≤ 10) :
    F64.toUint64 oor (F64.Pow (F64.ofNat Base62.length) (k : Int)) = 62 ^ k := by
  have h := floor_Pow_base ⟨k, by omega⟩
  simp only at h
  have hlt := pow_62_lt k hk
  unfold F64.toUint64
  rw [h, if_pos (by omega)]

theorem maxHashInt_eq (oor k : Nat) (hk : k ≤ 10) : maxHashInt oor (k : Int) = 62 ^ k := by
  have h := clamp_Pow_base ⟨k, by omega⟩
  simp only at h
  unfold maxHashInt
  rw [intValue_of_lt k (lt_of_le_of_lt hk (by decide)), h]
  exact toUint64_Pow_base oor k hk

theorem effectiveLength_bounds (opts : List Int) :
    1 ≤ effectiveLength opts ∧ effectiveLength opts ≤ 10 := by
  cases opts with
  | nil => simp [effectiveLength]
  | cons x r => simp only [effectiveLength]; omega

theorem randBound_eq (oor : Nat) (opts : List Int) :
    randBound oor opts = ((62 ^ effectiveLength opts : Nat) : Int) := by
  have hb := effectiveLength_bounds opts
  have hm : (62 ^ effectiveLength opts &&& MaxInt64 : Nat) = 62 ^ effectiveLength opts := by
    unfold MaxInt64
    rw [Nat.and_pow_two_sub_one_eq_mod]
    exact Nat.mod_eq_of_lt (pow_62_lt _ hb.2)
  cases opts with
  | nil =>
    simp only [randBound, DefaultTokenLength]
    rw [maxHashInt_eq oor 9 (by decide)]
    exact congrArg _ hm
  | cons x r =>
    simp only [randBound, MinTokenLength, MaxTokenLength]
    have hx : min (max x ((1 : Nat) : Int)) ((10 : Nat) : Int)
        = ((effectiveLength (x :: r) : Nat) : Int) := by
      simp only [effectiveLength]; omega
    rw [hx, maxHashInt_eq oor _ hb.2]
    exact congrArg _ hm

/-! ## `MarshalText` and `Encode` -/

theorem get_Base62 (d : Nat) (h : d < Base62.length) : Base62.get ⟨d, h⟩ = digitChar d := by
  simp [digitChar, List.getD_eq_getElem?_getD, List.getElem?_eq_getElem h]

theorem marshalLoop_eq (t : Token) : ∀ chars : List Byte,
    marshalLoop t chars = chars ++ (Nat.digits 62 t).map digitChar := by
  induction t using Nat.strong_induction_on with
  | _ t ih =>
    intro chars
    rw [marshalLoop]
    split
    · rename_i h
      rw [ih (t / base62Len) (Nat.div_lt_self h (by decide)), get_Base62]
      have hb : base62Len = 62 := by decide
      rw [Nat.digits_def' (by decide) h]
      simp [hb]
    · rename_i h
      have : t = 0 := Nat.eq_zero_of_not_pos h
      simp [this]

theorem reverseLoop_mid (mid : List Byte) : ∀ a b : List Byte,
    reverseLoop (a ++ mid ++ b) a.length (a.length + mid.length - 1)
      = a ++ mid.reverse ++ b := by
  induction mid using List.bidirectionalRec with
  | nil => intro a b; rw [reverseLoop]; simp
  | singleton x => intro a b; rw [reverseLoop]; simp
  | cons_append x mid y ih =>
    intro a b
    rw [reverseLoop]
    have hj : a.length + (x :: (mid ++ [y])).length - 1 = a.length + mid.length + 1 := by
      simp; omega
    rw [hj, if_pos (by omega)]
    have h1 : (a ++ x :: (mid ++ [y]) ++ b).getD (a.length + mid.length + 1) 0 = y := by
      have : a ++ x :: (mid ++ [y]) ++ b = (a ++ x :: mid) ++ y :: b := by simp
      rw [this, List.getD_eq_getElem?_getD, List.getElem?_append_right (by simp; omega)]
      have e0 : a.length + mid.length + 1 - (a ++ x :: mid).length = 0 := by simp; omega
      rw [e0]
      simp
    have h2 : (a ++ x :: (mid ++ [y]) ++ b).getD a.length 0 = x := by
      have : a ++ x :: (mid ++ [y]) ++ b = a ++ x :: (mid ++ y :: b) := by simp
      rw [this, List.getD_eq_getElem?_getD, List.getElem?_append_right (by simp)]
      simp
    rw [h1, h2]
    have h3 : ((a ++ x :: (mid ++ [y]) ++ b).set a.length y).set
        (a.length + mid.length + 1) x = (a ++ [y]) ++ mid ++ ([x] ++ b) := by
      have e1 : a ++ x :: (mid ++ [y]) ++ b = a ++ x :: (mid ++ y :: b) := by simp
      rw [e1, List.set_append_right _ _ (le_refl _)]
      simp only [Nat.sub_self, List.set_cons_zero]
      have e2 : a ++ y :: (mid ++ y :: b) = (a ++ y :: mid) ++ y :: b := by simp
      rw [e2, List.set_append_right _ _ (by simp; omega)]
      have e3 : a.length + mid.length + 1 - (a ++ y :: mid).length = 0 := by simp; omega
      rw [e3]
      simp
    rw [h3]
    have := ih (a ++ [y]) ([x] ++ b)
    simp only [List.length_append, List.length_singleton] at this
    have e : a.length + mid.length + 1 - 1 = a.length + 1 + mid.length - 1 := by omega
    rw [e, this]
    simp

theorem reverseLoop_eq (chars : List Byte) :
    reverseLoop chars 0 (chars.length - 1) = chars.reverse := by
  have := reverseLoop_mid chars [] []
  simpa using this

theorem Encode_eq (t : Token) : Encode t = ((Nat.digits 62 t).map digitChar).reverse := by
  unfold Encode MarshalText
  split
  · rename_i h; simp [h]
  · simp only [reverseLoop_eq, marshalLoop_eq, List.nil_append]

/-! ## The alphabet -/

/-- What `bytes.IndexByte` returns: -1 for an absent byte, and otherwise an index
in range at which the byte stands. -/
theorem IndexByte_spec (l : List Byte) (c : Byte) :
    (c ∉ l ∧ IndexByte l c = -1) ∨
    (c ∈ l ∧ 0 ≤ IndexByte l c ∧ (IndexByte l c).toNat < l.length ∧
      l.getD (IndexByte l c).toNat 0 = c) := by
  induction l with
  | nil => left; simp [IndexByte]
  | cons x xs ih =>
    by_cases hx : x = c
    · right
      subst hx
      simp [IndexByte]
    · rcases ih with ⟨h1, h2⟩ | ⟨h1, h2, h3, h4⟩
      · left
        refine ⟨by simp [h1, Ne.symm hx], ?_⟩
        simp [IndexByte, hx, h2]
      · right
        have hn : ¬ IndexByte xs c < 0 := by omega
        have e : (IndexByte xs c + 1).toNat = (IndexByte xs c).toNat + 1 := by omega
        refine ⟨by simp [h1], ?_, ?_, ?_⟩
        · simp only [IndexByte, hx, if_false, hn]; omega
        · simp only [IndexByte, hx, if_false, hn, e, List.length_cons]; omega
        · simp only [IndexByte, hx, if_false, hn, e]
          simpa using h4

set_option maxRecDepth 100000 in
theorem IndexByte_digitChar (d : Fin 62) : IndexByte Base62 (digitChar d) = (d : Nat) := by
  revert d; decide

theorem Base62_length : Base62.length = 62 := by decide

theorem digitChar_digitOf (c : Byte) (h : c ∈ Base62) : digitChar (digitOf c) = c := by
  rcases IndexByte_spec Base62 c with ⟨h1, _⟩ | ⟨_, _, _, h4⟩
  · exact absurd h h1
  · exact h4

theorem IndexByte_nonneg_iff (c : Byte) : ¬ IndexByte Base62 c < 0 ↔ c ∈ Base62 := by
  rcases IndexByte_spec Base62 c with ⟨h1, h2⟩ | ⟨h1, h2, _, _⟩
  · simp [h1, h2]
  · simp only [h1, iff_true]; omega

theorem digitOf_lt (c : Byte) : digitOf c < 62 := by
  rcases IndexByte_spec Base62 c with ⟨_, h2⟩ | ⟨_, _, h3, _⟩
  · simp [digitOf, h2]
  · rw [Base62_length] at h3; exact h3

set_option maxRecDepth 100000 in
theorem digitChar_mem (d : Fin 62) : digitChar d ∈ Base62 := by
  revert d; decide

theorem digitOf_digitChar (d : Nat) (h : d < 62) : digitOf (digitChar d) = d := by
  have := IndexByte_digitChar ⟨d, h⟩
  simp only at this
  simp [digitOf, this]

set_option maxRecDepth 100000 in
theorem digitOf_zeroChar : digitOf 48 = 0 := by decide

set_option maxRecDepth 100000 in
theorem digitChar_zero : digitChar 0 = 48 := by decide

theorem digitOf_eq_zero_iff (c : Byte) (h : c ∈ Base62) : digitOf c = 0 ↔ c = 48 := by
  constructor
  · intro h0
    have := digitChar_digitOf c h
    rw [h0, digitChar_zero] at this
    exact this.symm
  · intro h0; rw [h0]; exact digitOf_zeroChar

/-! ## `UnmarshalText` and `Decode` -/

theorem base62Value_lt (s : List Byte) : base62Value s < 62 ^ s.length := by
  induction s with
  | nil => simp [base62Value]
  | cons c rest ih =>
    have := digitOf_lt c
    simp only [base62Value, List.length_cons, pow_succ]
    nlinarith

theorem unmarshalLoop_ok (oor : Nat) (rest : List Byte) : ∀ idx number : Nat,
    (∀ c ∈ rest, c ∈ Base62) → idx + rest.length ≤ 10 → number + 62 ^ rest.length ≤ 2 ^ 64 →
    unmarshalLoop oor (F64.ofNat Base62.length) ((idx + rest.length : Nat) : Int) rest
      (idx : Int) number = Except.ok (number + base62Value rest) := by
  induction rest with
  | nil => intro idx number _ _ _; simp [unmarshalLoop, base62Value]
  | cons c rest ih =>
    intro idx number hmem hlen hnum
    have hc : ¬ IndexByte Base62 c < 0 := (IndexByte_nonneg_iff c).2 (hmem c (by simp))
    have hpow : ((idx + (c :: rest).length : Nat) : Int) - ((idx : Int) + 1)
        = ((rest.length : Nat) : Int) := by
      simp only [List.length_cons]; push_cast; ring
    have hd := digitOf_lt c
    simp only [List.length_cons] at hlen hnum
    have hk : rest.length ≤ 10 := by omega
    have hprod : digitOf c * 62 ^ rest.length + 62 ^ rest.length ≤ 62 ^ (rest.length + 1) := by
      have := Nat.mul_le_mul_right (62 ^ rest.length) (by omega : digitOf c + 1 ≤ 62)
      rw [pow_succ]; linarith
    have hprod2 : 0 < 62 ^ rest.length := by positivity
    rw [unmarshalLoop]
    simp only [hc, if_false, hpow, toUint64_Pow_base oor _ hk]
    have e1 : (IndexByte Base62 c).toNat = digitOf c := rfl
    rw [e1, Nat.mod_eq_of_lt (by omega), Nat.mod_eq_of_lt (by omega)]
    have e2 : ((idx + (c :: rest).length : Nat) : Int) = (((idx + 1) + rest.length : Nat) : Int) := by
      simp only [List.length_cons]; push_cast; ring
    have e3 : (idx : Int) + 1 = ((idx + 1 : Nat) : Int) := by push_cast; ring
    rw [e2, e3, ih (idx + 1) _ (fun x hx => hmem x (by simp [hx])) (by omega) (by omega)]
    simp only [base62Value]
    congr 1; omega

theorem unmarshalLoop_invalid (oor : Nat) (cl : F64) (tl : Int) (rest : List Byte) :
    ∀ (idx : Int) (number : Nat), (∃ c ∈ rest, c ∉ Base62) →
    unmarshalLoop oor cl tl rest idx number = Except.error Error.ErrInvalidCharacter := by
  induction rest with
  | nil => intro idx number h; simp at h
  | cons c rest ih =>
    intro idx number h
    rw [unmarshalLoop]
    by_cases hc : c ∈ Base62
    · have h1 : ¬ IndexByte Base62 c < 0 := (IndexByte_nonneg_iff c).2 hc
      simp only [h1, if_false]
      apply ih
      obtain ⟨x, hx, hx2⟩ := h
      rcases List.mem_cons.1 hx with rfl | hx3
      · exact absurd hc hx2
      · exact ⟨x, hx3, hx2⟩
    · have h1 : IndexByte Base62 c < 0 := by
        by_contra h2; exact hc ((IndexByte_nonneg_iff c).1 h2)
      simp only [h1, if_true]

theorem tokenLength_gt_iff (n : Nat) :
    F64.intValue (n : Int) > ((MaxTokenLength : Nat) : Int) ↔ 10 < n := by
  by_cases h : n < 2 ^ 53
  · rw [intValue_of_lt n h]; simp [MaxTokenLength]
  · have h1 := two_pow_53_le_intValue n (by omega)
    have h2 : (2 : Int) ^ 52 = 4503599627370496 := by norm_num
    have h3 : (2 : Nat) ^ 53 = 9007199254740992 := by norm_num
    simp only [MaxTokenLength]
    constructor
    · intro _; omega
    · intro _; push_cast; omega

theorem tokenLength_lt_iff (n : Nat) :
    F64.intValue (n : Int) < ((MinTokenLength : Nat) : Int) ↔ n < 1 := by
  by_cases h : n < 2 ^ 53
  · rw [intValue_of_lt n h]; simp [MinTokenLength]
  · have h1 := two_pow_53_le_intValue n (by omega)
    have h2 : (2 : Int) ^ 52 = 4503599627370496 := by norm_num
    have h3 : (2 : Nat) ^ 53 = 9007199254740992 := by norm_num
    simp only [MinTokenLength]
    constructor
    · intro _; push_cast at *; omega
    · intro _; omega

/-- What `UnmarshalText` does, case by case. -/
theorem UnmarshalText_eq (oor : Nat) (t : Token) (s : List Byte) :
    UnmarshalText oor t s =
      if 10 < s.length then (t, some Error.ErrTokenTooBig)
      else if s.length < 1 then (t, some Error.ErrTokenTooSmall)
      else if ∀ c ∈ s, c ∈ Base62 then (base62Value s, none)
      else (t, some Error.ErrInvalidCharacter) := by
  unfold UnmarshalText
  simp only [tokenLength_gt_iff, tokenLength_lt_iff]
  by_cases h1 : 10 < s.length
  · simp only [h1, if_true]
  · by_cases h2 : s.length < 1
    · simp only [h1, h2, if_true, if_false]
    · simp only [h1, h2, if_false]
      have hi : F64.intValue (s.length : Int) = ((0 + s.length : Nat) : Int) := by
        rw [intValue_of_lt _ (lt_of_le_of_lt (not_lt.1 h1) (by decide))]; simp
      by_cases h3 : ∀ c ∈ s, c ∈ Base62
      · have := unmarshalLoop_ok oor s 0 0 h3 (by omega)
          (by
            have : 62 ^ s.length < 2 ^ 63 := pow_62_lt _ (not_lt.1 h1)
            omega)
        simp only [Nat.cast_zero] at this
        rw [hi, this, if_pos h3]
        simp
      · have h4 : ∃ c ∈ s, c ∉ Base62 := by
          push_neg at h3; exact h3
        rw [unmarshalLoop_invalid oor _ _ s 0 0 h4, if_neg h3]

theorem Decode_eq (oor : Nat) (s : List Byte) :
    Decode oor s =
      if 10 < s.length then (0, some Error.ErrTokenTooBig)
      else if s.length < 1 then (0, some Error.ErrTokenTooSmall)
      else if ∀ c ∈ s, c ∈ Base62 then (base62Value s, none)
      else (0, some Error.ErrInvalidCharacter) :=
  UnmarshalText_eq oor 0 s

/-! ## Encoding and decoding as base-62 numerals -/

theorem base62Value_eq_ofDigits (s : List Byte) :
    base62Value s = Nat.ofDigits 62 (s.map digitOf).reverse := by
  induction s with
  | nil => simp [base62Value]
  | cons c rest ih =>
    simp only [base62Value, List.map_cons, List.reverse_cons, Nat.ofDigits_append,
      Nat.ofDigits_singleton, List.length_reverse, List.length_map, ih]
    ring

theorem base62Value_eq_sum (s : List Byte) :
    base62Value s = ∑ i : Fin s.length, digitOf (s.get i) * 62 ^ (s.length - 1 - (i : Nat)) := by
  induction s with
  | nil => simp [base62Value]
  | cons c rest ih =>
    show base62Value (c :: rest) = ∑ i : Fin (rest.length + 1),
      digitOf ((c :: rest).get i) * 62 ^ ((c :: rest).length - 1 - (i : Nat))
    rw [Fin.sum_univ_succ]
    simp only [base62Value, ih, List.length_cons, List.get_cons_zero, Fin.val_zero,
      List.get_cons_succ, Fin.val_succ]
    congr 1
    apply Finset.sum_congr rfl
    intro i _
    congr 2
    omega

theorem digits_length_le_iff (t L : Nat) : (Nat.digits 62 t).length ≤ L ↔ t < 62 ^ L := by
  constructor
  · intro h
    exact lt_of_lt_of_le (Nat.lt_base_pow_length_digits (by decide))
      (Nat.pow_le_pow_right (by decide) h)
  · intro h
    by_contra hc
    have ht : t ≠ 0 := by
      intro h0; rw [h0] at hc; simp at hc
    have h1 := Nat.base_pow_length_digits_le 62 t (by decide) ht
    have h2 : 62 ^ (L + 1) ≤ 62 ^ (Nat.digits 62 t).length :=
      Nat.pow_le_pow_right (by decide) (by omega)
    rw [pow_succ] at h2
    omega

theorem Encode_zero : Encode 0 = [] := by
  simp [Encode_eq]

theorem Encode_length (t : Token) : (Encode t).length = (Nat.digits 62 t).length := by
  simp [Encode_eq]

theorem Encode_length_le_iff (t : Token) (L : Nat) : (Encode t).length ≤ L ↔ t < 62 ^ L := by
  rw [Encode_length]; exact digits_length_le_iff t L

theorem Encode_mem (t : Token) : ∀ c ∈ Encode t, c ∈ Base62 := by
  intro c hc
  rw [Encode_eq] at hc
  simp only [List.mem_reverse, List.mem_map] at hc
  obtain ⟨d, hd, rfl⟩ := hc
  exact digitChar_mem ⟨d, Nat.digits_lt_base (by decide) hd⟩

theorem map_digitOf_digitChar (ds : List Nat) (h : ∀ d ∈ ds, d < 62) :
    (ds.map digitChar).map digitOf = ds := by
  induction ds with
  | nil => rfl
  | cons d r ih =>
    simp only [List.map_cons]
    rw [digitOf_digitChar d (h d (by simp)), ih (fun x hx => h x (by simp [hx]))]

theorem map_digitChar_digitOf (s : List Byte) (h : ∀ c ∈ s, c ∈ Base62) :
    (s.map digitOf).map digitChar = s := by
  induction s with
  | nil => rfl
  | cons c r ih =>
    simp only [List.map_cons]
    rw [digitChar_digitOf c (h c (by simp)), ih (fun x hx => h x (by simp [hx]))]

theorem base62Value_Encode (t : Token) : base62Value (Encode t) = t := by
  rw [base62Value_eq_ofDigits, Encode_eq, List.map_reverse, List.reverse_reverse,
    map_digitOf_digitChar _ (fun d hd => Nat.digits_lt_base (by decide) hd),
    Nat.ofDigits_digits]

theorem Encode_base62Value (s : List Byte) (h : ∀ c ∈ s, c ∈ Base62) :
    Encode (base62Value s) = s.dropWhile (fun c => c = 48) := by
  induction s with
  | nil => simp [base62Value, Encode_eq]
  | cons c rest ih =>
    by_cases hc : c = 48
    · have hv : base62Value (c :: rest) = base62Value rest := by
        simp [base62Value, hc, digitOf_zeroChar]
      rw [hv, ih (fun x hx => h x (by simp [hx]))]
      simp [List.dropWhile, hc]
    · have hd : digitOf c ≠ 0 := by
        intro h0; exact hc ((digitOf_eq_zero_iff c (h c (by simp))).1 h0)
      have hL : Nat.digits 62 (base62Value (c :: rest)) = ((c :: rest).map digitOf).reverse := by
        rw [base62Value_eq_ofDigits]
        apply Nat.digits_ofDigits 62 (by decide)
        · intro l hl
          simp only [List.mem_reverse, List.mem_map] at hl
          obtain ⟨x, _, rfl⟩ := hl
          exact digitOf_lt x
        · intro hne
          simp only [List.map_cons, List.reverse_cons, List.getLast_append_singleton]
          simpa using hd
      rw [Encode_eq, hL, List.map_reverse, List.reverse_reverse, map_digitChar_digitOf _ h]
      simp [List.dropWhile, hc]

/-! ## `New` -/

theorem New_eq (oor : Nat) (opts : List Int) (draw : Nat) :
    New oor opts draw = some (if draw = 0 then 1 else draw) := by
  have hb := randBound_eq oor opts
  have hpos : 0 < 62 ^ effectiveLength opts := by positivity
  have hn : ¬ randBound oor opts ≤ 0 := by
    rw [hb]; exact_mod_cast (by omega : ¬ 62 ^ effectiveLength opts ≤ 0)
  unfold New
  rw [if_neg hn]
  by_cases h0 : draw = 0
  · simp [h0]
  · simp [h0]

theorem New_lt (oor : Nat) (opts : List Int) (draw : Nat)
    (h : (draw : Int) < randBound oor opts) :
    (if draw = 0 then 1 else draw) < 62 ^ effectiveLength opts := by
  rw [randBound_eq] at h
  have h1 : draw < 62 ^ effectiveLength opts := by exact_mod_cast h
  have h2 : 62 ^ 1 ≤ 62 ^ effectiveLength opts :=
    Nat.pow_le_pow_right (by decide) (effectiveLength_bounds opts).1
  split <;> omega

/-! ## The properties of the specification -/

/-- C1. Round trip: for every token `t` with `1 ≤ t < 62 ^ 10`, `Decode(t.Encode())`
returns `t` with a nil error; and every token `New` returns, for any arguments
and any value drawn below the bound, is such a token and so round-trips. -/
theorem C1_round_trip (oor : Nat) :
    (∀ t : Token, 1 ≤ t → t < 62 ^ 10 → Decode oor (Encode t) = (t, none)) ∧
    (∀ (opts : List Int) (draw : Nat), (draw : Int) < randBound oor opts →
      ∃ t, New oor opts draw = some t ∧ 1 ≤ t ∧ t < 62 ^ 10 ∧
        Decode oor (Encode t) = (t, none)) := by
  have key : ∀ t : Token, 1 ≤ t → t < 62 ^ 10 → Decode oor (Encode t) = (t, none) := by
    intro t h1 h2
    have hlen : (Encode t).length ≤ 10 := (Encode_length_le_iff t 10).2 h2
    have hpos : ¬ (Encode t).length < 1 := by
      intro h
      have h0 : (Encode t).length ≤ 0 := by omega
      have h3 : t < 1 := (Encode_length_le_iff t 0).1 h0
      exact absurd h1 (Nat.not_le.2 h3)
    rw [Decode_eq, if_neg (by omega), if_neg hpos, if_pos (Encode_mem t), base62Value_Encode]
  refine ⟨key, ?_⟩
  intro opts draw h
  have hlt := New_lt oor opts draw h
  have hb := (effectiveLength_bounds opts).2
  have h10 : 62 ^ effectiveLength opts ≤ 62 ^ 10 := Nat.pow_le_pow_right (by decide) hb
  have h1 : 1 ≤ (if draw = 0 then 1 else draw) := by split <;> omega
  exact ⟨_, New_eq oor opts draw, h1, lt_of_lt_of_le hlt h10,
    key _ h1 (lt_of_lt_of_le hlt h10)⟩

/-- Witness of C1 at the token 3781 and at `New(3)` with the draw 3781. -/
theorem C1_round_trip_witness :
    (1 ≤ 3781 ∧ 3781 < 62 ^ 10 ∧ Decode 0 (Encode 3781) = (3781, none)) ∧
    (((3781 : Nat) : Int) < randBound 0 [3] ∧
      ∃ t, New 0 [3] 3781 = some t ∧ 1 ≤ t ∧ t < 62 ^ 10 ∧
        Decode 0 (Encode t) = (t, none)) :=
  ⟨⟨by decide, by decide, (C1_round_trip 0).1 3781 (by decide) (by decide)⟩,
    by rw [randBound_eq]; decide,
    (C1_round_trip 0).2 [3] 3781 (by rw [randBound_eq]; decide)⟩

/-- C2. For every byte string `s` of length `n` with `1 ≤ n ≤ 10` whose bytes all
occur in `Base62`, `Decode(s)` returns a nil error and the value
`Σ i, index(s[i]) * 62 ^ (n - 1 - i)`; the sum is the exact one (the 64-bit
accumulation did not wrap) and is below `62 ^ 10`. -/
theorem C2_decode_value (oor : Nat) (s : List Byte) (h1 : 1 ≤ s.length)
    (h2 : s.length ≤ 10) (h3 : ∀ c ∈ s, c ∈ Base62) :
    Decode oor s
      = (∑ i : Fin s.length, (IndexByte Base62 (s.get i)).toNat * 62 ^ (s.length - 1 - (i : Nat)),
          none) ∧
    (Decode oor s).1 < 62 ^ 10 := by
  have hd : Decode oor s = (base62Value s, none) := by
    rw [Decode_eq, if_neg (by omega), if_neg (by omega), if_pos h3]
  refine ⟨?_, ?_⟩
  · rw [hd, base62Value_eq_sum]; rfl
  · rw [hd]
    exact lt_of_lt_of_le (base62Value_lt s) (Nat.pow_le_pow_right (by decide) h2)

set_option maxRecDepth 100000 in
/-- Witness of C2 at the text "yz", which decodes to 3781. -/
theorem C2_decode_value_witness :
    (1 ≤ (ascii "yz").length ∧ (ascii "yz").length ≤ 10 ∧ ∀ c ∈ ascii "yz", c ∈ Base62) ∧
    Decode 0 (ascii "yz") = (3781, none) ∧ (Decode 0 (ascii "yz")).1 < 62 ^ 10 :=
  ⟨⟨by decide, by decide, by decide⟩,
    (C2_decode_value 0 (ascii "yz") (by decide) (by decide) (by decide)).1.trans (by decide),
    (C2_decode_value 0 (ascii "yz") (by decide) (by decide) (by decide)).2⟩

/-- C3. For every token `t`, every character of `t.Encode()` is a character of
`Base62`, and `t.Encode()` read as a base-62 numeral, most significant character
first, is `t`. -/
theorem C3_encode_numeral (t : Token) :
    (∀ c ∈ Encode t, c ∈ Base62) ∧ base62Value (Encode t) = t :=
  ⟨Encode_mem t, base62Value_Encode t⟩

/-- C4. `Token(0).Encode()` is the empty string, and for every token `t > 0` the
string `t.Encode()` is non-empty and its first character is not the character
'0' (the byte 48, `Base62[0]`). -/
theorem C4_no_leading_zero :
    Encode 0 = [] ∧
    ∀ t : Token, 0 < t → Encode t ≠ [] ∧ (Encode t).head? ≠ some (48 : Byte) := by
  refine ⟨Encode_zero, ?_⟩
  intro t ht
  have hne : t ≠ 0 := Nat.pos_iff_ne_zero.1 ht
  have hdn : Nat.digits 62 t ≠ [] := Nat.digits_ne_nil_iff_ne_zero.2 hne
  have hlast := Nat.getLast_digit_ne_zero 62 hne
  have hmem : (Nat.digits 62 t).getLast hdn < 62 :=
    Nat.digits_lt_base (by decide) (List.getLast_mem hdn)
  have hE : Encode t ≠ [] := by
    rw [Encode_eq]; simpa using hdn
  refine ⟨hE, ?_⟩
  intro hh
  have h1 : (Encode t).head? = some (digitChar ((Nat.digits 62 t).getLast hdn)) := by
    rw [Encode_eq, List.head?_reverse, List.getLast?_eq_getLast _ (by simpa using hdn)]
    simp [List.getLast_map]
  rw [h1] at hh
  have h2 : digitChar ((Nat.digits 62 t).getLast hdn) = 48 := by simpa using hh
  have h3 := digitOf_digitChar _ hmem
  rw [h2, digitOf_zeroChar] at h3
  exact hlast h3.symm

/-- Witness of C4 at the token 3781. -/
theorem C4_no_leading_zero_witness :
    0 < 3781 ∧ Encode 3781 ≠ [] ∧ (Encode 3781).head? ≠ some (48 : Byte) :=
  ⟨by decide, C4_no_leading_zero.2 3781 (by decide)⟩

/-- C5. Length bound of generation: for every integer `n` (negative and out of
range included), whatever further arguments follow it, and every value the
random source can return for the computed bound, `New(n)` returns a token whose
encoding has at most `clamp(n, 1, 10)` characters; without a length, `New()`
returns a token whose encoding has at most `DefaultTokenLength` characters. -/
theorem C5_generated_length (oor : Nat) :
    (∀ (n : Int) (more : List Int) (draw : Nat),
      (draw : Int) < randBound oor (n :: more) →
      ∃ t, New oor (n :: more) draw = some t ∧
        ((Encode t).length : Int) ≤ min (max n 1) 10) ∧
    (∀ draw : Nat, (draw : Int) < randBound oor [] →
      ∃ t, New oor [] draw = some t ∧ (Encode t).length ≤ DefaultTokenLength) := by
  constructor
  · intro n more draw h
    refine ⟨_, New_eq oor _ draw, ?_⟩
    have hlt := New_lt oor _ draw h
    have hle := (Encode_length_le_iff _ _).2 hlt
    have hc : ((effectiveLength (n :: more) : Nat) : Int) = min (max n 1) 10 := by
      simp only [effectiveLength]; omega
    rw [← hc]
    exact_mod_cast hle
  · intro draw h
    refine ⟨_, New_eq oor _ draw, ?_⟩
    have hlt := New_lt oor _ draw h
    exact (Encode_length_le_iff _ _).2 hlt

/-- Witness of C5 at `New(-4)` with the draw 61 and at `New()` with the draw 0. -/
theorem C5_generated_length_witness :
    (((61 : Nat) : Int) < randBound 0 [-4] ∧
      ∃ t, New 0 [-4] 61 = some t ∧ ((Encode t).length : Int) ≤ min (max (-4) 1) 10) ∧
    (((0 : Nat) : Int) < randBound 0 [] ∧
      ∃ t, New 0 [] 0 = some t ∧ (Encode t).length ≤ DefaultTokenLength) :=
  ⟨⟨by rw [randBound_eq]; decide,
      (C5_generated_length 0).1 (-4) [] 61 (by rw [randBound_eq]; decide)⟩,
    by rw [randBound_eq]; decide,
    (C5_generated_length 0).2 0 (by rw [randBound_eq]; decide)⟩

/-- C6. Non-zero generation: for every argument list and every value the random
source returns, a draw of exactly 0 included, `New` returns a token, which is 1
for the draw 0 and the draw itself otherwise, and which is never 0. -/
theorem C6_generated_nonzero (oor : Nat) (opts : List Int) (draw : Nat) :
    New oor opts draw = some (if draw = 0 then 1 else draw) ∧
    New oor opts 0 = some 1 ∧
    New oor opts draw ≠ some 0 := by
  refine ⟨New_eq oor opts draw, by rw [New_eq]; rfl, ?_⟩
  rw [New_eq]
  intro hh
  have := Option.some.inj hh
  split at this <;> omega

/-- C7. `Decode` fails with `ErrTokenTooBig` if and only if the input has more than
`MaxTokenLength` bytes; the length check comes before the characters are
looked at, so an input of more than 10 bytes with a byte outside `Base62` fails
with `ErrTokenTooBig`, not with `ErrInvalidCharacter`. -/
theorem C7_too_big (oor : Nat) (s : List Byte) :
    ((Decode oor s).2 = some Error.ErrTokenTooBig ↔ MaxTokenLength < s.length) ∧
    (MaxTokenLength < s.length → (∃ c ∈ s, c ∉ Base62) →
      (Decode oor s).2 = some Error.ErrTokenTooBig ∧
      (Decode oor s).2 ≠ some Error.ErrInvalidCharacter) := by
  have hiff : (Decode oor s).2 = some Error.ErrTokenTooBig ↔ MaxTokenLength < s.length := by
    rw [Decode_eq]
    simp only [MaxTokenLength]
    split
    · simp [*]
    · split
      · simp [*]
      · split <;> simp [*]
  refine ⟨hiff, ?_⟩
  intro h _
  have := hiff.2 h
  rw [this]
  exact ⟨rfl, by decide⟩

set_option maxRecDepth 100000 in
/-- Witness of C7 at eleven characters "~", none of which is in `Base62`. -/
theorem C7_too_big_witness :
    (MaxTokenLength < (List.replicate 11 (126 : Byte)).length ∧
      ∃ c ∈ List.replicate 11 (126 : Byte), c ∉ Base62) ∧
    (Decode 0 (List.replicate 11 (126 : Byte))).2 = some Error.ErrTokenTooBig ∧
    (Decode 0 (List.replicate 11 (126 : Byte))).2 ≠ some Error.ErrInvalidCharacter :=
  ⟨⟨by decide, by decide⟩,
    (C7_too_big 0 (List.replicate 11 126)).2 (by decide) (by decide)⟩

/-- C8. `Decode` fails with `ErrInvalidCharacter` if and only if the input has
between 1 and 10 bytes and at least one of them does not occur in `Base62`; and
every call of `Decode` falls in exactly one of four cases: success (1 to 10
bytes, all in `Base62`), `ErrTokenTooSmall`, `ErrTokenTooBig` or
`ErrInvalidCharacter`. -/
theorem C8_invalid_character (oor : Nat) (s : List Byte) :
    ((Decode oor s).2 = some Error.ErrInvalidCharacter ↔
      (1 ≤ s.length ∧ s.length ≤ 10 ∧ ∃ c ∈ s, c ∉ Base62)) ∧
    ((Decode oor s).2 = none ↔ (1 ≤ s.length ∧ s.length ≤ 10 ∧ ∀ c ∈ s, c ∈ Base62)) ∧
    ((Decode oor s).2 = none ∨ (Decode oor s).2 = some Error.ErrTokenTooSmall ∨
      (Decode oor s).2 = some Error.ErrTokenTooBig ∨
      (Decode oor s).2 = some Error.ErrInvalidCharacter) := by
  rw [Decode_eq]
  by_cases h1 : 10 < s.length
  · simp only [h1, if_true]
    refine ⟨?_, ?_, ?_⟩
    · simp; omega
    · simp; omega
    · simp
  · by_cases h2 : s.length < 1
    · simp only [h1, h2, if_true, if_false]
      refine ⟨?_, ?_, ?_⟩
      · simp; omega
      · simp; omega
      · simp
    · simp only [h1, h2, if_false]
      by_cases h3 : ∀ c ∈ s, c ∈ Base62
      · rw [if_pos h3]
        refine ⟨?_, ?_, ?_⟩
        · simp only [false_iff, reduceCtorEq]
          rintro ⟨_, _, c, hc, hc2⟩
          exact hc2 (h3 c hc)
        · simp only [true_iff]
          exact ⟨by omega, by omega, h3⟩
        · simp
      · rw [if_neg h3]
        refine ⟨?_, ?_, ?_⟩
        · simp only [true_iff]
          push_neg at h3
          exact ⟨by omega, by omega, h3⟩
        · simp only [false_iff, reduceCtorEq]
          rintro ⟨_, _, h⟩
          exact h3 h
        · simp

/-- C9. `Decode` fails with `ErrTokenTooSmall` if and only if the input is empty;
zero does not round-trip: `Decode(Token(0).Encode())` fails with
`ErrTokenTooSmall` and returns no decoded zero. -/
theorem C9_too_small (oor : Nat) :
    (∀ s : List Byte, (Decode oor s).2 = some Error.ErrTokenTooSmall ↔ s = []) ∧
    Decode oor (Encode 0) = (0, some Error.ErrTokenTooSmall) ∧
    (Decode oor (Encode 0)).2 ≠ none := by
  refine ⟨?_, ?_, ?_⟩
  · intro s
    rw [Decode_eq]
    cases s with
    | nil => simp
    | cons c r =>
      simp only [List.length_cons]
      split
      · simp
      · rw [if_neg (by omega)]
        split <;> simp
  · rw [Encode_zero, Decode_eq]; simp
  · rw [Encode_zero, Decode_eq]; simp

/-- C10. `Encode` after `Decode` drops the leading '0' characters and nothing else:
for every valid input `s` (1 to 10 bytes, all in `Base62`), `Decode(s).Encode()`
is `s` without its leading '0' characters (byte 48), and it is `s` itself
exactly when `s` does not start with '0'. -/
theorem C10_decode_encode (oor : Nat) (s : List Byte) (h1 : 1 ≤ s.length)
    (h2 : s.length ≤ 10) (h3 : ∀ c ∈ s, c ∈ Base62) :
    (Decode oor s).2 = none ∧
    Encode (Decode oor s).1 = s.dropWhile (fun c => c = 48) ∧
    (Encode (Decode oor s).1 = s ↔ s.head? ≠ some (48 : Byte)) := by
  have hd : Decode oor s = (base62Value s, none) := by
    rw [Decode_eq, if_neg (by omega), if_neg (by omega), if_pos h3]
  rw [hd]
  refine ⟨rfl, Encode_base62Value s h3, ?_⟩
  show Encode (base62Value s) = s ↔ _
  rw [Encode_base62Value s h3]
  cases s with
  | nil => simp at h1
  | cons c r =>
    by_cases hc : c = 48
    · simp only [List.dropWhile, hc, decide_True, List.head?_cons, ne_eq, not_true_eq_false,
        iff_false]
      intro h
      have := congrArg List.length h
      have hle := (List.dropWhile_sublist (l := r) (fun c : Byte => decide (c = 48))).length_le
      simp only [List.length_cons] at this
      omega
    · simp [List.dropWhile, hc]

set_option maxRecDepth 100000 in
/-- Witness of C10 at the text "0123456789", which comes back as "123456789". -/
theorem C10_decode_encode_witness :
    (1 ≤ (ascii "0123456789").length ∧ (ascii "0123456789").length ≤ 10 ∧
      ∀ c ∈ ascii "0123456789", c ∈ Base62) ∧
    (Decode 0 (ascii "0123456789")).2 = none ∧
    Encode (Decode 0 (ascii "0123456789")).1 = ascii "123456789" ∧
    (Encode (Decode 0 (ascii "0123456789")).1 = ascii "0123456789" ↔
      (ascii "0123456789").head? ≠ some (48 : Byte)) :=
  ⟨⟨by decide, by decide, by decide⟩,
    (C10_decode_encode 0 (ascii "0123456789") (by decide) (by decide) (by decide)).1,
    (C10_decode_encode 0 (ascii "0123456789") (by decide) (by decide) (by decide)).2.1.trans
      (by decide),
    (C10_decode_encode 0 (ascii "0123456789") (by decide) (by decide) (by decide)).2.2⟩

/-! ## Fuel

The two fuel-bounded loops of the float64 model have all the fuel they need:
more fuel never changes their result. -/

theorem bitLenAux_fuel (fuel : Nat) : ∀ n k : Nat, n < 2 ^ fuel →
    bitLenAux (fuel + k) n = bitLenAux fuel n := by
  induction fuel with
  | zero =>
    intro n k h
    have h0 : n = 0 := by simpa using h
    subst h0
    cases k <;> simp [bitLenAux]
  | succ f ih =>
    intro n k h
    have e : f + 1 + k = (f + k) + 1 := by omega
    rw [e]
    simp only [bitLenAux]
    rw [ih (n / 2) k (by rw [pow_succ] at h; omega)]

theorem bitLen_fuel (n k : Nat) : bitLenAux (n + k) n = bitLen n :=
  bitLenAux_fuel n n k (Nat.lt_two_pow n)

theorem powLoop_fuel (fuel : Nat) : ∀ (i k : Nat) (x1 : F64) (xe : Int) (a1 : F64) (ae : Int),
    i < 2 ^ fuel →
    F64.powLoop (fuel + k) i x1 xe a1 ae = F64.powLoop fuel i x1 xe a1 ae := by
  induction fuel with
  | zero =>
    intro i k x1 xe a1 ae h
    have h0 : i = 0 := by simpa using h
    subst h0
    cases k <;> simp [F64.powLoop]
  | succ f ih =>
    intro i k x1 xe a1 ae h
    have e : f + 1 + k = (f + k) + 1 := by omega
    have hi : i / 2 < 2 ^ f := by rw [pow_succ] at h; omega
    rw [e]
    simp only [F64.powLoop]
    rw [ih (i / 2) k _ _ _ _ hi, ih (i / 2) k _ _ _ _ hi]

/-! ## The test tables of `token_test.go` -/

set_option maxRecDepth 100000 in
theorem TestUnmarshalText_table (oor : Nat) :
    UnmarshalText oor 0 (ascii "") = (0, some Error.ErrTokenTooSmall) ∧
    UnmarshalText oor 0 (List.replicate (MaxTokenLength + 1) 97)
      = (0, some Error.ErrTokenTooBig) ∧
    UnmarshalText oor 0 (ascii "~") = (0, some Error.ErrInvalidCharacter) ∧
    UnmarshalText oor 0 (ascii "0123456789") = (225557475374453, none) ∧
    UnmarshalText oor 0 (ascii "ABCDEFGHIJ") = (137815617453790883, none) ∧
    UnmarshalText oor 0 (ascii "KLMNOPQRST") = (275405677432207313, none) ∧
    UnmarshalText oor 0 (ascii "UVWXYZabcd") = (412995737410623743, none) ∧
    UnmarshalText oor 0 (ascii "efghijklmn") = (550585797389040173, none) ∧
    UnmarshalText oor 0 (ascii "opqrstuvwx") = (688175857367456603, none) ∧
    UnmarshalText oor 0 (ascii "yz") = (3781, none) := by
  simp only [UnmarshalText_eq]
  decide

theorem MarshalText_eq (t : Token) : MarshalText t = (Encode t, none) := by
  unfold Encode MarshalText
  split <;> rfl

theorem Encode_of_base62Value (s : List Byte) (t : Token) (h : ∀ c ∈ s, c ∈ Base62)
    (hz : s.head? ≠ some 48) (hv : base62Value s = t) : Encode t = s := by
  rw [← hv, Encode_base62Value s h]
  cases s with
  | nil => rfl
  | cons c r =>
    have hc : ¬ c = 48 := by simpa using hz
    simp [List.dropWhile, hc]

set_option maxRecDepth 100000 in
theorem TestMarshalText_table :
    MarshalText 0 = (ascii "", none) ∧
    MarshalText 225557475374453 = (ascii "123456789", none) ∧
    MarshalText 137815617453790883 = (ascii "ABCDEFGHIJ", none) ∧
    MarshalText 275405677432207313 = (ascii "KLMNOPQRST", none) ∧
    MarshalText 412995737410623743 = (ascii "UVWXYZabcd", none) ∧
    MarshalText 550585797389040173 = (ascii "efghijklmn", none) ∧
    MarshalText 688175857367456603 = (ascii "opqrstuvwx", none) ∧
    MarshalText 3781 = (ascii "yz", none) := by
  simp only [MarshalText_eq]
  refine ⟨?_, ?_, ?_, ?_, ?_, ?_, ?_, ?_⟩ <;>
    exact congrArg (fun x => (x, none))
      (Encode_of_base62Value _ _ (by decide) (by decide) (by decide))

/-! ## Further properties of the specification -/

theorem Decode_ok_lt (oor : Nat) (s : List Byte) (t : Token) (h : Decode oor s = (t, none)) :
    t < 62 ^ 10 := by
  rw [Decode_eq] at h
  split at h
  · simp at h
  · split at h
    · simp at h
    · split at h
      · rename_i h1 _ _
        have ht : base62Value s = t := (Prod.mk.inj h).1
        rw [← ht]
        exact lt_of_lt_of_le (base62Value_lt s)
          (Nat.pow_le_pow_right (by decide) (not_lt.1 h1))
      · simp at h

set_option maxRecDepth 100000 in
/-- C11 fails as stated: the 64-bit token `62 ^ 10 = 839299365868340224` encodes
to the 11 characters "10000000000", one more than `MaxTokenLength`. -/
theorem C11_counterexample :
    (839299365868340224 : Token) < 2 ^ 64 ∧
    Encode 839299365868340224 = ascii "10000000000" ∧
    ¬ (Encode 839299365868340224).length ≤ MaxTokenLength := by
  have h : Encode 839299365868340224 = ascii "10000000000" :=
    Encode_of_base62Value _ _ (by decide) (by decide) (by decide)
  refine ⟨by decide, h, ?_⟩
  rw [h]
  decide

/-- C11, amended. The encoding of a token `t` has at most `MaxTokenLength`
characters exactly when `t < 62 ^ 10`; that is the case of every token `New`
returns and of every token `Decode` returns without error. -/
theorem C11_encoded_length (oor : Nat) :
    (∀ t : Token, (Encode t).length ≤ MaxTokenLength ↔ t < 62 ^ 10) ∧
    (∀ (opts : List Int) (draw : Nat) (t : Token), (draw : Int) < randBound oor opts →
      New oor opts draw = some t → (Encode t).length ≤ MaxTokenLength) ∧
    (∀ (s : List Byte) (t : Token), Decode oor s = (t, none) →
      (Encode t).length ≤ MaxTokenLength) := by
  refine ⟨fun t => Encode_length_le_iff t 10, ?_, ?_⟩
  · intro opts draw t h hnew
    rw [New_eq] at hnew
    have ht := Option.some.inj hnew
    have hlt := New_lt oor opts draw h
    rw [ht] at hlt
    have h10 : 62 ^ effectiveLength opts ≤ 62 ^ 10 :=
      Nat.pow_le_pow_right (by decide) (effectiveLength_bounds opts).2
    exact (Encode_length_le_iff t 10).2 (lt_of_lt_of_le hlt h10)
  · intro s t h
    exact (Encode_length_le_iff t 10).2 (Decode_ok_lt oor s t h)

set_option maxRecDepth 100000 in
/-- Witness of C11 (amended) at the token 3781, at `New(12)` with the draw 3781
and at the text "yz". -/
theorem C11_encoded_length_witness :
    ((Encode 3781).length ≤ MaxTokenLength ↔ 3781 < 62 ^ 10) ∧
    (((3781 : Nat) : Int) < randBound 0 [12] ∧ New 0 [12] 3781 = some 3781 ∧
      (Encode 3781).length ≤ MaxTokenLength) ∧
    (Decode 0 (ascii "yz") = (3781, none) ∧ (Encode 3781).length ≤ MaxTokenLength) :=
  have hb : ((3781 : Nat) : Int) < randBound 0 [12] := by rw [randBound_eq]; decide
  have hn : New 0 [12] 3781 = some 3781 := by rw [New_eq]; rfl
  have hd : Decode 0 (ascii "yz") = (3781, none) := by rw [Decode_eq]; decide
  ⟨(C11_encoded_length 0).1 3781,
    ⟨hb, hn, (C11_encoded_length 0).2.1 [12] 3781 3781 hb hn⟩,
    ⟨hd, (C11_encoded_length 0).2.2 (ascii "yz") 3781 hd⟩⟩

/-- C12. `UnmarshalText` is atomic: when it returns an error the receiver keeps
the value it had before the call; when it returns nil the receiver is the
decoded value of the input whatever it was before; the error does not depend on
the receiver; and `Decode`, which starts from a zero token, returns the token 0
together with every error. -/
theorem C12_unmarshal_atomic (oor : Nat) (t : Token) (s : List Byte) :
    ((UnmarshalText oor t s).2 ≠ none → (UnmarshalText oor t s).1 = t) ∧
    ((UnmarshalText oor t s).2 = none →
      ∀ u : Token, UnmarshalText oor u s = (base62Value s, none)) ∧
    (∀ u : Token, (UnmarshalText oor u s).2 = (UnmarshalText oor t s).2) ∧
    ((Decode oor s).2 ≠ none → (Decode oor s).1 = 0) := by
  unfold Decode
  simp only [UnmarshalText_eq]
  by_cases h1 : 10 < s.length
  · simp [h1]
  · by_cases h2 : s.length < 1
    · simp [h1, h2]
    · by_cases h3 : ∀ c ∈ s, c ∈ Base62
      · simp only [if_neg h1, if_neg h2, if_pos h3]
        simp
      · simp only [if_neg h1, if_neg h2, if_neg h3]
        simp

set_option maxRecDepth 100000 in
/-- Witness of C12: from the receiver 7, the text "~" fails and leaves 7, and the
text "yz" succeeds and leaves 3781. -/
theorem C12_unmarshal_atomic_witness :
    UnmarshalText 0 7 (ascii "~") = (7, some Error.ErrInvalidCharacter) ∧
    ((UnmarshalText 0 7 (ascii "~")).2 ≠ none ∧ (UnmarshalText 0 7 (ascii "~")).1 = 7) ∧
    ((UnmarshalText 0 7 (ascii "yz")).2 = none ∧
      UnmarshalText 0 7 (ascii "yz") = (base62Value (ascii "yz"), none) ∧
      base62Value (ascii "yz") = 3781) ∧
    ((Decode 0 (ascii "~")).2 ≠ none ∧ (Decode 0 (ascii "~")).1 = 0) :=
  have h1 : UnmarshalText 0 7 (ascii "~") = (7, some Error.ErrInvalidCharacter) := by
    rw [UnmarshalText_eq]; decide
  have h2 : (UnmarshalText 0 7 (ascii "~")).2 ≠ none := by rw [h1]; decide
  have h3 : (UnmarshalText 0 7 (ascii "yz")).2 = none := by rw [UnmarshalText_eq]; decide
  have h4 : (Decode 0 (ascii "~")).2 ≠ none := by rw [Decode_eq]; decide
  ⟨h1, ⟨h2, (C12_unmarshal_atomic 0 7 (ascii "~")).1 h2⟩,
    ⟨h3, (C12_unmarshal_atomic 0 7 (ascii "yz")).2.1 h3 7, by decide⟩,
    ⟨h4, (C12_unmarshal_atomic 0 7 (ascii "~")).2.2.2 h4⟩⟩

set_option maxRecDepth 100000 in
/-- C13 fails as stated: the texts of 11 and of 12 characters "a", all in `Base62`,
are rejected with `ErrTokenTooBig`. -/
theorem C13_counterexample :
    ((List.replicate 11 (97 : Byte)).length = 11 ∧
      (∀ c ∈ List.replicate 11 (97 : Byte), c ∈ Base62) ∧
      Decode 0 (List.replicate 11 97) = (0, some Error.ErrTokenTooBig)) ∧
    ((List.replicate 12 (97 : Byte)).length = 12 ∧
      (∀ c ∈ List.replicate 12 (97 : Byte), c ∈ Base62) ∧
      Decode 0 (List.replicate 12 97) = (0, some Error.ErrTokenTooBig)) := by
  simp only [Decode_eq]
  decide

/-- C13, amended. `Decode` returns a token (nil error) for every base62 encoded
string of 1 to `MaxTokenLength` = 10 characters; a string of 11 characters or
more, 11 and 12 included, fails with `ErrTokenTooBig` although all its
characters occur in `Base62`. -/
theorem C13_decode_lengths (oor : Nat) (s : List Byte) (h : ∀ c ∈ s, c ∈ Base62) :
    (1 ≤ s.length → s.length ≤ MaxTokenLength → Decode oor s = (base62Value s, none)) ∧
    (MaxTokenLength < s.length → Decode oor s = (0, some Error.ErrTokenTooBig)) := by
  simp only [MaxTokenLength]
  constructor
  · intro h1 h2
    rw [Decode_eq, if_neg (by omega), if_neg (by omega), if_pos h]
  · intro h1
    rw [Decode_eq, if_pos h1]

set_option maxRecDepth 100000 in
/-- Witness of C13 (amended) at the 10 characters "ABCDEFGHIJ" and at 12
characters "a". -/
theorem C13_decode_lengths_witness :
    ((∀ c ∈ ascii "ABCDEFGHIJ", c ∈ Base62) ∧ 1 ≤ (ascii "ABCDEFGHIJ").length ∧
      (ascii "ABCDEFGHIJ").length ≤ MaxTokenLength ∧
      Decode 0 (ascii "ABCDEFGHIJ") = (137815617453790883, none)) ∧
    ((∀ c ∈ List.replicate 12 (97 : Byte), c ∈ Base62) ∧
      MaxTokenLength < (List.replicate 12 (97 : Byte)).length ∧
      Decode 0 (List.replicate 12 97) = (0, some Error.ErrTokenTooBig)) :=
  ⟨⟨by decide, by decide, by decide,
      ((C13_decode_lengths 0 (ascii "ABCDEFGHIJ") (by decide)).1 (by decide)
        (by decide)).trans (by decide)⟩,
    ⟨by decide, by decide,
      (C13_decode_lengths 0 (List.replicate 12 97) (by decide)).2 (by decide)⟩⟩

set_option maxRecDepth 100000 in
theorem Base62_nodup : Base62.Nodup := by decide

set_option maxRecDepth 100000 in
theorem Base62_order :
    Base62 = (List.range 10).map (fun k => (Fin.ofNat (48 + k) : Byte))
      ++ (List.range 26).map (fun k => (Fin.ofNat (65 + k) : Byte))
      ++ (List.range 26).map (fun k => (Fin.ofNat (97 + k) : Byte)) := by
  decide

set_option maxRecDepth 100000 in
theorem IndexByte_get (i : Fin Base62.length) : IndexByte Base62 (Base62.get i) = (i : Nat) := by
  revert i; decide

/-- C14. `Base62` has exactly 62 characters, pairwise distinct, in the order
digits '0'-'9' (bytes 48..57), upper case 'A'-'Z' (65..90), lower case 'a'-'z'
(97..122); the index lookup of `Decode` on the character `Base62[i]` returns `i`,
and the character at the index looked up for a character of `Base62` is that
character. -/
theorem C14_alphabet :
    Base62.length = 62 ∧ Base62.Nodup ∧
    Base62 = (List.range 10).map (fun k => (Fin.ofNat (48 + k) : Byte))
      ++ (List.range 26).map (fun k => (Fin.ofNat (65 + k) : Byte))
      ++ (List.range 26).map (fun k => (Fin.ofNat (97 + k) : Byte)) ∧
    (∀ i : Fin Base62.length, IndexByte Base62 (Base62.get i) = (i : Nat)) ∧
    (∀ c ∈ Base62, 0 ≤ IndexByte Base62 c ∧ (IndexByte Base62 c).toNat < Base62.length ∧
      Base62.getD (IndexByte Base62 c).toNat 0 = c) := by
  refine ⟨Base62_length, Base62_nodup, Base62_order, IndexByte_get, ?_⟩
  intro c hc
  rcases IndexByte_spec Base62 c with ⟨h1, _⟩ | ⟨_, h2, h3, h4⟩
  · exact absurd hc h1
  · exact ⟨h2, h3, h4⟩

set_option maxRecDepth 100000 in
/-- Witness of C14 at the character 'z' (byte 122), the last of `Base62`. -/
theorem C14_alphabet_witness :
    (122 : Byte) ∈ Base62 ∧ IndexByte Base62 122 = 61 ∧
    0 ≤ IndexByte Base62 122 ∧ (IndexByte Base62 122).toNat < Base62.length ∧
      Base62.getD (IndexByte Base62 122).toNat 0 = 122 :=
  ⟨by decide, by decide, C14_alphabet.2.2.2.2 122 (by decide)⟩

/-! ## The marshal loop, step by step -/

theorem marshalStep_iterate (n : Nat) : ∀ (t : Token) (chars : List Byte), t < 62 ^ n →
    marshalStep^[n] (t, chars) = (0, marshalLoop t chars) := by
  induction n with
  | zero =>
    intro t chars h
    have h0 : t = 0 := by simpa using h
    subst h0
    rw [marshalLoop]; simp
  | succ n ih =>
    intro t chars h
    rw [Function.iterate_succ_apply]
    by_cases ht : 0 < t
    · have hdiv : t / base62Len < 62 ^ n := by
        have hb : base62Len = 62 := by decide
        rw [hb, Nat.div_lt_iff_lt_mul (by decide), ← pow_succ]
        exact h
      have hs : marshalStep (t, chars)
          = (t / base62Len,
              chars ++ [Base62.get ⟨t % base62Len, Nat.mod_lt t (by decide)⟩]) := by
        simp only [marshalStep, ht, if_true]
      rw [hs, ih _ _ hdiv]
      conv_rhs => rw [marshalLoop]
      simp only [ht, if_true]
    · have h0 : t = 0 := Nat.eq_zero_of_not_pos ht
      subst h0
      have hs : marshalStep (0, chars) = (0, chars) := by
        simp [marshalStep]
      rw [hs]
      exact ih 0 chars (by positivity)

/-- C15. `MarshalText` always succeeds: for every token `t` it returns the bytes
of `t.Encode()` and a nil error, every returned byte is a character of `Base62`,
and the marshal loop terminates: some number of iterations, at most 11 for a
64-bit token, takes the loop state `(t, [])` to the final state with `t = 0`
and the characters the loop returns. -/
theorem C15_marshal_succeeds (t : Token) :
    MarshalText t = (Encode t, none) ∧
    (∀ c ∈ (MarshalText t).1, c ∈ Base62) ∧
    (∃ n, marshalStep^[n] (t, []) = (0, marshalLoop t [])) ∧
    (t < 2 ^ 64 → marshalStep^[11] (t, []) = (0, marshalLoop t [])) := by
  refine ⟨MarshalText_eq t, ?_, ?_, ?_⟩
  · rw [MarshalText_eq]; exact Encode_mem t
  · exact ⟨t, marshalStep_iterate t t [] (Nat.lt_pow_self (by decide) t)⟩
  · intro h
    exact marshalStep_iterate 11 t [] (lt_trans h (by decide))

/-- Witness of C15 at the largest 64-bit token. -/
theorem C15_marshal_succeeds_witness :
    (18446744073709551615 : Token) < 2 ^ 64 ∧
    marshalStep^[11] (18446744073709551615, [])
      = (0, marshalLoop 18446744073709551615 []) :=
  ⟨by decide, (C15_marshal_succeeds 18446744073709551615).2.2.2 (by decide)⟩

/-! ## The bound of the random draw -/

/-- C16. For every integer `n` the bound `New(n)` passes to `rand.Int63n` is exactly
`62 ^ clamp(n, 1, 10)`, and `62 ^ 9` when no length is given; `maxHashInt` returns
that power and masking it with `MaxInt64` does not change it; the bound is
strictly positive and below `2 ^ 63`, so that the draw does not panic; and the
token returned for a draw below the bound lies in `[1, bound)`. -/
theorem C16_random_bound (oor : Nat) :
    (∀ (n : Int) (more : List Int),
      randBound oor (n :: more) = ((62 ^ (min (max n 1) 10).toNat : Nat) : Int) ∧
      maxHashInt oor (min (max n 1) 10) = 62 ^ (min (max n 1) 10).toNat ∧
      maxHashInt oor (min (max n 1) 10) &&& MaxInt64 = maxHashInt oor (min (max n 1) 10)) ∧
    (randBound oor [] = ((62 ^ 9 : Nat) : Int) ∧
      maxHashInt oor DefaultTokenLength = 62 ^ 9 ∧
      maxHashInt oor DefaultTokenLength &&& MaxInt64 = maxHashInt oor DefaultTokenLength) ∧
    (∀ opts : List Int, 0 < randBound oor opts ∧ randBound oor opts < 2 ^ 63) ∧
    (∀ (opts : List Int) (draw : Nat), (draw : Int) < randBound oor opts →
      ∃ t : Token, New oor opts draw = some t ∧ 1 ≤ t ∧ (t : Int) < randBound oor opts) := by
  have hmask : ∀ k : Nat, k ≤ 10 → 62 ^ k &&& MaxInt64 = 62 ^ k := by
    intro k hk
    unfold MaxInt64
    rw [Nat.and_pow_two_sub_one_eq_mod]
    exact Nat.mod_eq_of_lt (pow_62_lt k hk)
  refine ⟨?_, ?_, ?_, ?_⟩
  · intro n more
    have hc : min (max n 1) 10 = (((min (max n 1) 10).toNat : Nat) : Int) := by omega
    have hk : (min (max n 1) 10).toNat ≤ 10 := by omega
    have hm : maxHashInt oor (min (max n 1) 10) = 62 ^ (min (max n 1) 10).toNat := by
      conv_lhs => rw [hc]
      exact maxHashInt_eq oor _ hk
    refine ⟨?_, hm, ?_⟩
    · rw [randBound_eq]; rfl
    · rw [hm]; exact hmask _ hk
  · have hm : maxHashInt oor DefaultTokenLength = 62 ^ 9 := maxHashInt_eq oor 9 (by decide)
    refine ⟨?_, hm, ?_⟩
    · rw [randBound_eq]; rfl
    · rw [hm]; exact hmask 9 (by decide)
  · intro opts
    rw [randBound_eq]
    have hb := effectiveLength_bounds opts
    have h1 : 0 < 62 ^ effectiveLength opts := by positivity
    have h2 := pow_62_lt _ hb.2
    constructor
    · exact_mod_cast h1
    · exact_mod_cast h2
  · intro opts draw h
    have hlt := New_lt oor opts draw h
    have h1 : 1 ≤ (if draw = 0 then 1 else draw) := by split <;> omega
    refine ⟨_, New_eq oor opts draw, h1, ?_⟩
    rw [randBound_eq]
    exact_mod_cast hlt

/-- Witness of C16 at `New(0)`, whose bound is 62, with a draw of exactly 0. -/
theorem C16_random_bound_witness :
    ((0 : Nat) : Int) < randBound 0 [0] ∧
    ∃ t : Token, New 0 [0] 0 = some t ∧ 1 ≤ t ∧ (t : Int) < randBound 0 [0] :=
  ⟨by rw [randBound_eq]; decide,
    (C16_random_bound 0).2.2.2 [0] 0 (by rw [randBound_eq]; decide)⟩

/-! ## The length of an encoding -/

theorem Encode_length_eq (t : Token) (L : Nat) (h1 : 62 ^ L ≤ t) (h2 : t < 62 ^ (L + 1)) :
    (Encode t).length = L + 1 := by
  have ha := (Encode_length_le_iff t (L + 1)).2 h2
  have hb : ¬ (Encode t).length ≤ L := by
    intro h
    exact absurd ((Encode_length_le_iff t L).1 h) (Nat.not_lt.2 h1)
  omega

/-- C17. Exact length of an encoding: for every token `t` and every `L`,
`len(t.Encode()) ≤ L` if and only if `t < 62 ^ L`; every 64-bit token encodes to
at most 11 characters; every 64-bit token `t ≥ 62 ^ 10` encodes to exactly 11
characters, and `Decode(t.Encode())` then fails with `ErrTokenTooBig`. -/
theorem C17_exact_length (oor : Nat) (t : Token) :
    (∀ L : Nat, (Encode t).length ≤ L ↔ t < 62 ^ L) ∧
    (t < 2 ^ 64 → (Encode t).length ≤ 11) ∧
    (62 ^ 10 ≤ t → t < 2 ^ 64 →
      (Encode t).length = 11 ∧ Decode oor (Encode t) = (0, some Error.ErrTokenTooBig)) := by
  refine ⟨fun L => Encode_length_le_iff t L, ?_, ?_⟩
  · intro h
    exact (Encode_length_le_iff t 11).2 (lt_trans h (by decide))
  · intro h1 h2
    have hl : (Encode t).length = 11 :=
      Encode_length_eq t 10 h1 (lt_trans h2 (by decide))
    refine ⟨hl, ?_⟩
    rw [Decode_eq, if_pos (by omega)]

/-- Witness of C17 at the largest 64-bit token. -/
theorem C17_exact_length_witness :
    (62 ^ 10 ≤ (18446744073709551615 : Token) ∧ (18446744073709551615 : Token) < 2 ^ 64) ∧
    (Encode 18446744073709551615).length ≤ 11 ∧
    (Encode 18446744073709551615).length = 11 ∧
    Decode 0 (Encode 18446744073709551615) = (0, some Error.ErrTokenTooBig) :=
  ⟨⟨by decide, by decide⟩,
    (C17_exact_length 0 18446744073709551615).2.1 (by decide),
    (C17_exact_length 0 18446744073709551615).2.2 (by decide) (by decide)⟩

/-! ## Order -/

set_option maxRecDepth 100000 in
theorem Base62_sorted : Base62.Pairwise (fun a b => a < b) := by decide

theorem lt_of_digitOf_lt (a b : Byte) (ha : a ∈ Base62) (hb : b ∈ Base62)
    (h : digitOf a < digitOf b) : a < b := by
  rcases IndexByte_spec Base62 a with ⟨h1, _⟩ | ⟨_, _, ha3, ha4⟩
  · exact absurd ha h1
  rcases IndexByte_spec Base62 b with ⟨h1, _⟩ | ⟨_, _, hb3, hb4⟩
  · exact absurd hb h1
  have hs := List.pairwise_iff_getElem.1 Base62_sorted (digitOf a) (digitOf b) ha3 hb3 h
  have ea : Base62[digitOf a] = a := by
    have := ha4
    rw [List.getD_eq_getElem?_getD, List.getElem?_eq_getElem ha3] at this
    exact this
  have eb : Base62[digitOf b] = b := by
    have := hb4
    rw [List.getD_eq_getElem?_getD, List.getElem?_eq_getElem hb3] at this
    exact this
  rw [ea, eb] at hs
  exact hs

theorem eq_of_digitOf_eq (a b : Byte) (ha : a ∈ Base62) (hb : b ∈ Base62)
    (h : digitOf a = digitOf b) : a = b := by
  rw [← digitChar_digitOf a ha, ← digitChar_digitOf b hb, h]

theorem lexLt_of_value_lt (s : List Byte) : ∀ u : List Byte, s.length = u.length →
    (∀ c ∈ s, c ∈ Base62) → (∀ c ∈ u, c ∈ Base62) → base62Value s < base62Value u →
    lexLt s u = true := by
  induction s with
  | nil =>
    intro u hl _ _ hv
    cases u with
    | nil => simp [base62Value] at hv
    | cons b u => simp at hl
  | cons a s ih =>
    intro u hl hs hu hv
    cases u with
    | nil => simp at hl
    | cons b u =>
      have hlen : s.length = u.length := by simpa using hl
      have hvs := base62Value_lt s
      have hvu := base62Value_lt u
      simp only [base62Value, hlen] at hv hvs
      rcases Nat.lt_trichotomy (digitOf a) (digitOf b) with hd | hd | hd
      · have hab := lt_of_digitOf_lt a b (hs a (by simp)) (hu b (by simp)) hd
        simp [lexLt, hab]
      · have hab := eq_of_digitOf_eq a b (hs a (by simp)) (hu b (by simp)) hd
        have hv2 : base62Value s < base62Value u := by
          rw [hd] at hv; omega
        have := ih u hlen (fun c hc => hs c (by simp [hc])) (fun c hc => hu c (by simp [hc])) hv2
        simp [lexLt, hab, this]
      · exfalso
        have := Nat.mul_le_mul_right (62 ^ u.length) (by omega : digitOf b + 1 ≤ digitOf a)
        have e : (digitOf b + 1) * 62 ^ u.length
            = digitOf b * 62 ^ u.length + 62 ^ u.length := by ring
        omega

/-- C18. `Encode` is strictly order-preserving: for all tokens `t < u`, `t.Encode()`
comes before `u.Encode()` in shortlex order (the shorter text first, texts of
one length in bytewise lexicographic order); `Base62` lists its characters in
increasing byte order; and `Encode` is injective. -/
theorem C18_encode_order (t u : Token) :
    (t < u → shortlexLt (Encode t) (Encode u)) ∧
    (Encode t = Encode u → t = u) ∧
    Base62.Pairwise (fun a b => a < b) := by
  refine ⟨?_, ?_, Base62_sorted⟩
  · intro h
    have hle : (Encode t).length ≤ (Encode u).length :=
      (Encode_length_le_iff t _).2
        (lt_trans h ((Encode_length_le_iff u _).1 (le_refl _)))
    rcases Nat.lt_or_ge (Encode t).length (Encode u).length with hlt | hge
    · exact Or.inl hlt
    · have heq : (Encode t).length = (Encode u).length := le_antisymm hle hge
      refine Or.inr ⟨heq, ?_⟩
      apply lexLt_of_value_lt _ _ heq (Encode_mem t) (Encode_mem u)
      rw [base62Value_Encode, base62Value_Encode]
      exact h
  · intro h
    have := congrArg base62Value h
    rwa [base62Value_Encode, base62Value_Encode] at this

set_option maxRecDepth 100000 in
/-- Witness of C18 at the tokens 61 ("z") and 62 ("10"), and at 3781 ("yz") and
3782 ("z0"). -/
theorem C18_encode_order_witness :
    ((61 : Token) < 62 ∧ Encode 61 = ascii "z" ∧ Encode 62 = ascii "10" ∧
      shortlexLt (Encode 61) (Encode 62)) ∧
    ((3781 : Token) < 3782 ∧ Encode 3781 = ascii "yz" ∧ Encode 3782 = ascii "z0" ∧
      shortlexLt (Encode 3781) (Encode 3782)) :=
  ⟨⟨by decide, Encode_of_base62Value _ _ (by decide) (by decide) (by decide),
      Encode_of_base62Value _ _ (by decide) (by decide) (by decide),
      (C18_encode_order 61 62).1 (by decide)⟩,
    ⟨by decide, Encode_of_base62Value _ _ (by decide) (by decide) (by decide),
      Encode_of_base62Value _ _ (by decide) (by decide) (by decide),
      (C18_encode_order 3781 3782).1 (by decide)⟩⟩

/-! ## `maxHashInt` -/

/-- C19, what the code does: for every length `L` in 1..10, `maxHashInt(L)` is
`62 ^ L`, whose encoding has `L + 1` characters, not `L`; the largest integer
whose encoding has `L` characters is `maxHashInt(L) - 1`. -/
theorem C19_maxHashInt_length (oor L : Nat) (h1 : 1 ≤ L) (h2 : L ≤ 10) :
    maxHashInt oor (L : Int) = 62 ^ L ∧
    (Encode (maxHashInt oor (L : Int))).length = L + 1 ∧
    (Encode (maxHashInt oor (L : Int) - 1)).length = L ∧
    (∀ t : Token, (Encode t).length ≤ L ↔ t ≤ maxHashInt oor (L : Int) - 1) := by
  have hm := maxHashInt_eq oor L h2
  have hL : L - 1 + 1 = L := Nat.sub_add_cancel h1
  have hpow : 62 ^ L = 62 ^ (L - 1) * 62 := by
    rw [← pow_succ, hL]
  have hpos2 : 0 < 62 ^ (L - 1) := by positivity
  have hA : 62 ^ (L - 1) ≤ 62 ^ L - 1 := by
    rw [hpow]
    generalize 62 ^ (L - 1) = p at hpos2 ⊢
    omega
  have hB : 62 ^ L - 1 < 62 ^ L := by
    rw [hpow]
    generalize 62 ^ (L - 1) = p at hpos2 ⊢
    omega
  rw [hm]
  refine ⟨rfl, ?_, ?_, ?_⟩
  · exact Encode_length_eq _ L (le_refl _)
      (Nat.pow_lt_pow_right (by decide) (Nat.lt_succ_self L))
  · have := Encode_length_eq (62 ^ L - 1) (L - 1) hA (by rw [hL]; exact hB)
    rw [this, hL]
  · intro t
    rw [Encode_length_le_iff]
    constructor
    · intro h; exact Nat.le_sub_one_of_lt h
    · intro h; exact lt_of_le_of_lt h hB

set_option maxRecDepth 100000 in
/-- Witness of C19 at the length 1: `maxHashInt(1)` is 62, which encodes to the two
characters "10", and 61 encodes to the one character "z". -/
theorem C19_maxHashInt_length_witness :
    (1 ≤ 1 ∧ 1 ≤ 10) ∧
    maxHashInt 0 ((1 : Nat) : Int) = 62 ∧ Encode 62 = ascii "10" ∧
    (Encode (maxHashInt 0 ((1 : Nat) : Int))).length = 1 + 1 ∧
    (Encode (maxHashInt 0 ((1 : Nat) : Int) - 1)).length = 1 :=
  ⟨⟨by decide, by decide⟩,
    (C19_maxHashInt_length 0 1 (by decide) (by decide)).1,
    Encode_of_base62Value _ _ (by decide) (by decide) (by decide),
    (C19_maxHashInt_length 0 1 (by decide) (by decide)).2.1,
    (C19_maxHashInt_length 0 1 (by decide) (by decide)).2.2.1⟩

end token
